import Mathlib

/-!
Verification development for the pgroonga-search-engine repository.

The definitions below are shallow embeddings of the Python source:

* `src/src/services/query_normalizer.py` / `src/src/query_normalizer.py`
  (query normalization pipeline),
* `src/src/services/synonym_expander.py` / `src/src/synonym_expander.py`
  (per-token OR-group expansion),
* `src/src/snippet/snippet_generator.py` (sentence-scoring snippets),
* `src/src/crawler/anomaly_detector.py` (URL anomaly detection),
* `src/src/crawler/link_extractor.py` (same-host link extraction),
* `src/src/indexer/image_selector.py` (representative-image choice),
* `src/src/crawler/scheduler.py` / `src/src/crawler/repository.py`
  (crawl-state transitions over the `crawl_urls` / `web_pages` tables),
* `src/src/services/search_service.py` (search pipeline effects).

Python strings are modelled as Lean `String` / `List Char` (Python `len`
counts code points, as does `String.length`).  Python stdlib collaborators
that are not part of the repository (`unicodedata.normalize`, `str.lower`,
`urllib.parse.urljoin`, the iteration order of `set`) are either modelled
on the fragment the claims exercise or passed as explicit parameters, as
documented at each definition.
-/

/-- The set of characters matched by Python's `\s` for `str` patterns and
stripped by `str.strip()` (characters with `str.isspace() == True`). -/
def pyIsSpace (c : Char) : Bool :=
  let n := c.toNat
  (9 ≤ n && n ≤ 13) || (28 ≤ n && n ≤ 32) || n == 0x85 || n == 0xA0 ||
    n == 0x1680 || (0x2000 ≤ n && n ≤ 0x200A) || n == 0x2028 || n == 0x2029 ||
    n == 0x202F || n == 0x205F || n == 0x3000

/-- Source: `re.sub(r'\s+', ' ', s)`: every maximal run of whitespace characters is
replaced by a single ASCII space. -/
def pyCollapse : List Char → List Char
  | [] => []
  | [c] => if pyIsSpace c then [' '] else [c]
  | c :: d :: rest =>
    if pyIsSpace c then
      if pyIsSpace d then pyCollapse (d :: rest)
      else ' ' :: pyCollapse (d :: rest)
    else c :: pyCollapse (d :: rest)

/-- Source: `str.strip()`: drop whitespace characters from both ends. -/
def pyStrip (l : List Char) : List Char :=
  (((l.dropWhile pyIsSpace).reverse.dropWhile pyIsSpace)).reverse

/-- Source: `QueryNormalizer.normalize` (`src/services/query_normalizer.py`) and the
identical `normalize_query` (`src/query_normalizer.py`):
`if not query: return ""`, then NFKC, then `.lower()`, then
`re.sub(r'\s+', ' ', ...).strip()`.  The two character-level stdlib
collaborators `unicodedata.normalize('NFKC', ·)` and `str.lower` are taken
as parameters `nfkc` and `lowerF`; the whitespace machinery is embedded
exactly. -/
def pyNormalize (nfkc lowerF : String → String) (query : String) : String :=
  if query = "" then ""
  else String.mk (pyStrip (pyCollapse ((lowerF (nfkc query)).data)))

/-- Well-formed whitespace: every whitespace character is an ASCII space and
no two whitespace characters are adjacent.  This is the shape of
`re.sub(r'\s+', ' ', s)` output. -/
def wsP (l : List Char) : Prop :=
  (∀ c ∈ l, pyIsSpace c → c = ' ') ∧
    List.Chain' (fun a b => ¬(pyIsSpace a = true ∧ pyIsSpace b = true)) l


/-- Split at the first character satisfying the separator test, dropping
the separator: returns (before, after). -/
def splitFirstChar (sep : Char) (l : List Char) : List Char × List Char :=
  (l.takeWhile (fun c => c ≠ sep), (l.dropWhile (fun c => c ≠ sep)).drop 1)

/-- Scan for the first "://", returning the characters before it and the
characters after it. -/
def splitSchemeAux : List Char → Option (List Char × List Char)
  | ':' :: '/' :: '/' :: rest => some ([], rest)
  | c :: rest =>
    (splitSchemeAux rest).map (fun pr => (c :: pr.1, pr.2))
  | [] => none

/-- The components of `urllib.parse.urlparse`, modelled for the absolute
and relative URL shapes the crawler handles (the rarely-used `params`
component, split at ';', is folded into `path`). -/
structure UrlParts where
  scheme : String
  netloc : String
  path : String
  query : String
  fragment : String
deriving DecidableEq, Repr

/-- Source: `urllib.parse.urlparse(url)`: fragment after the first '#', query
after the first '?', then scheme/netloc when "://" is present. -/
def pyUrlparse (url : String) : UrlParts :=
  let bf := splitFirstChar '#' url.data
  let bq := splitFirstChar '?' bf.1
  match splitSchemeAux bq.1 with
  | some pr =>
    ⟨String.mk pr.1, String.mk (pr.2.takeWhile (fun c => c ≠ '/')),
      String.mk (pr.2.dropWhile (fun c => c ≠ '/')),
      String.mk bq.2, String.mk bf.2⟩
  | none => ⟨"", "", String.mk bq.1, String.mk bq.2, String.mk bf.2⟩

/-- Source: `urllib.parse.urlparse(url).path`. -/
def urlPath (url : String) : String := (pyUrlparse url).path

/-- Source: `str.split(sep)` for a single separator character, on the character
list of a string. -/
def splitChar (sep : Char) : List Char → List (List Char)
  | [] => [[]]
  | c :: rest =>
    if c = sep then [] :: splitChar sep rest
    else
      match splitChar sep rest with
      | [] => [[c]]
      | s :: ss => (c :: s) :: ss

/-- Source: `path.split('/')` keeping only non-empty segments
(`[s for s in path.split('/') if s]`). -/
def pathSegments (path : String) : List String :=
  ((splitChar '/' path.data).map String.mk).filter (fun s => s ≠ "")

/-- The repetition loop of `AnomalyDetector.is_anomalous`: walks the
segments carrying `repeat_count` and `last_segment`, incrementing the count
on an immediate repeat and resetting it otherwise; reports an anomaly as
soon as the count reaches `max_repeats`. -/
def repeatLoop (maxRepeats : Nat) : Nat → Option String → List String → Bool
  | _, _, [] => false
  | rc, last, s :: rest =>
    let rc' := if (some s) == last then rc + 1 else 0
    if maxRepeats ≤ rc' then true else repeatLoop maxRepeats rc' (some s) rest

/-- Source: `settings.CRAWLER.MAX_URL_LENGTH` (default 256). -/
def MAX_URL_LENGTH : Nat := 256

/-- Source: `settings.CRAWLER.MAX_PATH_SEGMENT_REPEATS` (default 3). -/
def MAX_PATH_SEGMENT_REPEATS : Nat := 3

/-- Source: `AnomalyDetector.is_anomalous` (`src/crawler/anomaly_detector.py`):
a URL is anomalous when it is longer than `MAX_URL_LENGTH`, or when the
path-segment repetition loop trips. -/
def isAnomalous (url : String) : Bool :=
  if MAX_URL_LENGTH < url.length then true
  else
    let segments := pathSegments (urlPath url)
    if segments = [] then false
    else repeatLoop MAX_PATH_SEGMENT_REPEATS 0 none segments


/-- Split a character list at every character satisfying `p`
(the shape of Python `str.split(sep)` / `re.split` on single characters). -/
def splitOnP (p : Char → Bool) : List Char → List (List Char)
  | [] => [[]]
  | c :: rest =>
    if p c then [] :: splitOnP p rest
    else
      match splitOnP p rest with
      | [] => [[c]]
      | s :: ss => (c :: s) :: ss

/-- Python `str.split()` with no argument: split on whitespace runs and
drop empty words. -/
def pyWords (l : List Char) : List (List Char) :=
  (splitOnP pyIsSpace l).filter (fun w => w ≠ [])

/-- Python string comparison: lexicographic by code point. -/
def lexLe : List Char → List Char → Bool
  | [], _ => true
  | _ :: _, [] => false
  | a :: as, b :: bs =>
    if a.toNat < b.toNat then true
    else if b.toNat < a.toNat then false
    else lexLe as bs

/-- Python `<=` on strings (code-point lexicographic order). -/
def strLeB (a b : String) : Bool := lexLe a.data b.data

/-- Stable insertion into a list sorted by `le` (earlier elements stay in
front of later equal elements). -/
def insertLe (le : α → α → Bool) (x : α) : List α → List α
  | [] => [x]
  | y :: ys => if le x y then x :: y :: ys else y :: insertLe le x ys

/-- Stable sort by `le`, the order contract of Python `sorted`. -/
def sortLe (le : α → α → Bool) : List α → List α
  | [] => []
  | x :: xs => insertLe le x (sortLe le xs)

/-- Source: `sorted(list(set([term] + syn_list)))` of `SynonymExpander.expand`:
the duplicate-free, code-point-sorted variants of a token under a
dictionary (`dict.get(term, [])` is association-list lookup). -/
def synVariants (d : List (String × List String)) (t : String) :
    List String :=
  sortLe strLeB ((t :: ((d.lookup t).getD [])).dedup)

/-- The group emitted per token by `SynonymExpander.expand`:
`"(A OR B)"` when there is more than one variant, the bare token
otherwise. -/
def synGroup (d : List (String × List String)) (t : String) : String :=
  let vs := synVariants d t
  if 1 < vs.length then "(" ++ String.intercalate " OR " vs ++ ")" else t

/-- Source: `SynonymExpander.expand` (`src/services/synonym_expander.py` and the
identical `src/synonym_expander.py`): empty query maps to the empty
string; otherwise split on whitespace, expand each token to its OR-group
and join the groups with single spaces. -/
def expand (d : List (String × List String)) (q : String) : String :=
  if q = "" then ""
  else String.intercalate " " (((pyWords q.data).map String.mk).map (synGroup d))


/-- Python `str.lower()` on the ASCII fragment: character-wise
`Char.toLower` (the claims exercise ASCII content only). -/
def pyLower (s : String) : String := String.mk (s.data.map Char.toLower)

/-- Source: `needle` occurs at the head of the second list. -/
def startsWithL : List Char → List Char → Bool
  | [], _ => true
  | _ :: _, [] => false
  | a :: as, b :: bs => a == b && startsWithL as bs

/-- Python `needle in hay` on strings: substring containment. -/
def containsSubL (needle : List Char) : List Char → Bool
  | [] => needle.isEmpty
  | c :: rest => startsWithL needle (c :: rest) || containsSubL needle rest

/-- The sentence delimiters of the `re.split` pattern in
`SnippetGenerator.generate`: the character class is `[.!。]`
(no question mark). -/
def sentDelim (c : Char) : Bool := c == '.' || c == '!' || c == '。'

/-- The four delimiters named by the specification text, including `?`. -/
def sentDelimClaim (c : Char) : Bool :=
  c == '.' || c == '!' || c == '?' || c == '。'

/-- Source: `re.split(r'(?<=[delims])\s+', content)`: a piece ends at a delimiter
character that is followed by whitespace; the whitespace run is consumed.
The `skip` flag is true while the matched whitespace run is being
consumed. -/
def sentGo (delim : Char → Bool) : Bool → List Char → List (List Char)
  | _, [] => [[]]
  | skip, c :: rest =>
    if skip && pyIsSpace c then sentGo delim true rest
    else if delim c && (match rest with
        | d :: _ => pyIsSpace d
        | [] => false) then
      [c] :: sentGo delim true rest
    else
      match sentGo delim false rest with
      | [] => [[c]]
      | s :: ss => (c :: s) :: ss

/-- Source: `SnippetGenerator.MAX_LENGTH`. -/
def SNIPPET_MAX_LENGTH : Nat := 120

/-- Source: `SnippetGenerator._truncate`: content is cut to 120 code points with a
trailing ellipsis when it is longer. -/
def pyTruncate (t : String) : String :=
  if t.length ≤ SNIPPET_MAX_LENGTH then t
  else String.mk (t.data.take SNIPPET_MAX_LENGTH) ++ "..."

/-- Sentence score in `SnippetGenerator.generate`: the number of query
terms (with multiplicity, as the code iterates the term list) that occur
as substrings of the lowercased sentence. -/
def scoreOf (terms : List (List Char)) (s : List Char) : Int :=
  ((terms.filter (fun t => containsSubL t (s.map Char.toLower))).length : Int)

/-- The best-sentence fold of `SnippetGenerator.generate`: start from
`("", -1)` and replace the accumulator whenever a sentence scores strictly
higher. -/
def bestPick (terms : List (List Char)) (sentences : List (List Char)) :
    List Char × Int :=
  sentences.foldl
    (fun acc s =>
      let sc := scoreOf terms s
      if acc.2 < sc then (s, sc) else acc)
    ([], -1)

/-- Source: `SnippetGenerator.generate` (`src/snippet/snippet_generator.py`):
empty content gives ""; empty term list gives the truncated head;
otherwise split into sentences, pick the first strictly-improving
max-scoring sentence, and fall back to the truncated head when the best
score is not positive. -/
def generate (content query : String) : String :=
  if content = "" then ""
  else
    let terms := pyWords ((pyLower query).data)
    if terms = [] then pyTruncate content
    else
      let sentences := sentGo sentDelim false content.data
      let best := bestPick terms sentences
      if best.2 ≤ 0 then pyTruncate content
      else pyTruncate (String.mk best.1)

/-- The snippet generator as the specification text describes it (for
comparison with `generate`): all four sentence delimiters including `?`,
and scoring by distinct lowercased query tokens. -/
def generateClaim (content query : String) : String :=
  if content = "" then ""
  else
    let terms := (pyWords ((pyLower query).data)).dedup
    if terms = [] then pyTruncate content
    else
      let sentences := sentGo sentDelimClaim false content.data
      let best := bestPick terms sentences
      if best.2 ≤ 0 then pyTruncate content
      else pyTruncate (String.mk best.1)


/-- One entry of the image metadata list passed to
`ImageSelector.select_best_image` (keys `'hash'`, `'alt'`, `'position'`;
`alt` may be absent/None and `position` may be absent). -/
structure PageImage where
  hash : String
  alt : Option String
  position : Option Int
deriving DecidableEq, Repr

/-- Lexicographic comparison of the `(alt-flag, position)` sort keys, the
order used by Python `sorted` on 2-tuples. -/
def keyLeB (a b : Nat × Int) : Bool :=
  if a.1 < b.1 then true
  else if b.1 < a.1 then false
  else decide (a.2 ≤ b.2)

/-- The sort key of `ImageSelector.select_best_image`:
`(0 if x.get('alt') and len(x.get('alt', '')) > 5 else 1,
  x.get('position', 9999))`. -/
def imageKey (i : PageImage) : Nat × Int :=
  ((match i.alt with
    | some a => if a ≠ "" ∧ 5 < a.length then 0 else 1
    | none => 1),
   i.position.getD 9999)

/-- The sort key the claim describes: alt-text presence first (any
non-empty alt text), then position. -/
def imageKeyClaim (i : PageImage) : Nat × Int :=
  ((match i.alt with
    | some a => if a ≠ "" then 0 else 1
    | none => 1),
   i.position.getD 9999)

/-- Source: `ImageSelector.select_best_image` (`src/indexer/image_selector.py`):
None on an empty list, otherwise the hash of the first image of the
stably sorted candidate list. -/
def selectBestImage (images : List PageImage) : Option String :=
  match images with
  | [] => none
  | _ :: _ =>
    ((sortLe (fun i j => keyLeB (imageKey i) (imageKey j))
      images).head?).map (fun i => i.hash)

/-- The selector as the claim describes it (alt presence, not
length-thresholded alt), for comparison with `selectBestImage`. -/
def selectBestImageClaim (images : List PageImage) : Option String :=
  match images with
  | [] => none
  | _ :: _ =>
    ((sortLe (fun i j => keyLeB (imageKeyClaim i) (imageKeyClaim j))
      images).head?).map (fun i => i.hash)


/-- Source: `LinkExtractor._is_ignored_scheme`:
`href.lower().strip().startswith(('mailto:', 'tel:', 'javascript:', '#'))`. -/
def isIgnoredScheme (href : String) : Bool :=
  let h := pyStrip ((pyLower href).data)
  ["mailto:", "tel:", "javascript:", "#"].any
    (fun p => startsWithL p.data h)

/-- Source: `LinkExtractor._is_valid_target`: same netloc as the base URL, no
excluded path keyword as a substring of the lowercased path, and an
http(s) scheme. -/
def isValidTarget (domain : String) (url : String) : Bool :=
  let parsed := pyUrlparse url
  if parsed.netloc ≠ domain then false
  else if ["/login", "/logout", "/signout", "/admin"].any
      (fun k => containsSubL k.data ((pyLower parsed.path).data)) then false
  else if parsed.scheme ≠ "http" ∧ parsed.scheme ≠ "https" then false
  else true

/-- Source: `urllib.parse.urlunparse((scheme, netloc, path, params, query, ''))`
as called by `LinkExtractor._normalize`: the fragment is dropped and the
query kept. -/
def urlunparseNoFrag (p : UrlParts) : String :=
  (if p.scheme ≠ "" then p.scheme ++ ":" else "") ++
    (if p.netloc ≠ "" then "//" ++ p.netloc else "") ++ p.path ++
    (if p.query ≠ "" then "?" ++ p.query else "")

/-- Source: `LinkExtractor._normalize`: re-serialize the parsed URL without its
fragment. -/
def normalizeLink (url : String) : String := urlunparseNoFrag (pyUrlparse url)

/-- The per-href processing of `LinkExtractor.extract_links_from_soup`,
over the `href` attributes in document order; `ujoin` is the stdlib
collaborator `urllib.parse.urljoin`. -/
def linkCandidates (ujoin : String → String → String) (baseUrl : String)
    (hrefs : List String) : List String :=
  hrefs.filterMap (fun href =>
    if isIgnoredScheme href then none
    else
      let absUrl := ujoin baseUrl href
      if !isValidTarget (pyUrlparse baseUrl).netloc absUrl then none
      else some (normalizeLink absUrl))

/-- First-occurrence deduplication with an accumulator of already-seen
values: the mathematical content of inserting each candidate into a
Python `set`. -/
def dedupAcc (seen : List String) : List String → List String
  | [] => []
  | x :: xs =>
    if x ∈ seen then dedupAcc seen xs
    else x :: dedupAcc (x :: seen) xs

/-- The distinct candidate values in first-occurrence order. -/
def insertionDedup (l : List String) : List String := dedupAcc [] l

/-- The contract of `list(s)` for a Python `set s`: some duplicate-free
enumeration of the set's elements, in unspecified order. -/
def validSetEnum (enum : List String → List String) : Prop :=
  ∀ l : List String, l.Nodup → (enum l).Nodup ∧ ∀ x, x ∈ enum l ↔ x ∈ l

/-- Source: `LinkExtractor.extract_links_from_soup`
(`src/crawler/link_extractor.py`): add every qualifying normalized link
to a `set` and return `list(links)`; `enum` stands for the set's
(unspecified) iteration order. -/
def extractLinksWith (ujoin : String → String → String)
    (enum : List String → List String) (baseUrl : String)
    (hrefs : List String) : List String :=
  enum (insertionDedup (linkCandidates ujoin baseUrl hrefs))


/-- The `status` column of `crawl_urls`. -/
inductive CStatus where
  | pending
  | crawling
  | done
  | error
  | blocked
  | deleted
deriving DecidableEq, Repr

/-- One row of `crawl_urls` (scores are integral: all score arithmetic in
the source adds or subtracts the integral settings constants). -/
structure UrlRow where
  domain : String
  depth : Nat
  status : CStatus
  score : Int
  errorCount : Nat
  nextCrawlAt : Int
  lastCrawledAt : Option Int
  updatedAt : Option Int
  deletedAt : Option Int
deriving DecidableEq, Repr

/-- The durable state the crawler transitions act on: the `crawl_urls`
association list (unique URLs), the set of `web_pages` rows (by URL), and
the per-domain Redis success counters `stats:domain_count:<host>`. -/
structure CrawlDB where
  crawlUrls : List (String × UrlRow)
  webPages : List String
  domainSuccessCount : List (String × Nat)
deriving DecidableEq, Repr

/-- Source: `settings.CRAWLER.BASE_SCORE` (100.0). -/
def BASE_SCORE : Int := 100

/-- Source: `settings.CRAWLER.DEPTH_PENALTY` (10.0). -/
def DEPTH_PENALTY : Int := 10

/-- Source: `settings.CRAWLER.ERROR_PENALTY` (20.0). -/
def ERROR_PENALTY : Int := 20

/-- Source: `settings.CRAWLER.MAX_RETRIES` (5). -/
def MAX_RETRIES : Nat := 5

/-- Source: `settings.CRAWLER.DEFAULT_INTERVAL_SECONDS` (86400). -/
def DEFAULT_INTERVAL_SECONDS : Int := 86400

/-- Source: `settings.CRAWLER.ERROR_INTERVAL_SECONDS` (21600). -/
def ERROR_INTERVAL_SECONDS : Int := 21600

/-- Source: `UPDATE crawl_urls SET ... WHERE url = %s`: apply `f` to every row
whose key is `u` (keys are unique, so at most one). -/
def updateUrlRow (u : String) (f : UrlRow → UrlRow)
    (l : List (String × UrlRow)) : List (String × UrlRow) :=
  l.map (fun p => if p.1 = u then (p.1, f p.2) else p)

/-- Redis `INCR stats:domain_count:<host>`. -/
def bumpDomain (d : String) (l : List (String × Nat)) : List (String × Nat) :=
  if (l.lookup d).isSome then
    l.map (fun p => if p.1 = d then (p.1, p.2 + 1) else p)
  else l ++ [(d, 1)]

/-- Source: `urlparse(url).netloc`. -/
def urlNetloc (url : String) : String := (pyUrlparse url).netloc

/-- Source: `CrawlRepository.mark_crawled` / `CrawlScheduler.mark_crawled`
(`src/crawler/repository.py`, `src/crawler/scheduler.py`; the two are
effect-identical): fetch the row (absent row: return with no effect);
on success reset errors and score, bump the domain counter and schedule
`now + DEFAULT_INTERVAL_SECONDS`; on failure increment the error count,
and either transition to deleted and delete the `web_pages` row (when the
new count exceeds MAX_RETRIES) or apply the error penalty and schedule
`now + ERROR_INTERVAL_SECONDS`. -/
def markCrawled (now : Int) (url : String) (success : Bool)
    (db : CrawlDB) : CrawlDB :=
  match db.crawlUrls.lookup url with
  | none => db
  | some row =>
    if success then
      let newScore := BASE_SCORE - (row.depth : Int) * DEPTH_PENALTY
      { db with
        domainSuccessCount :=
          bumpDomain (urlNetloc url) db.domainSuccessCount
        crawlUrls := updateUrlRow url (fun r =>
          { r with
            status := CStatus.done
            errorCount := 0
            score := newScore
            nextCrawlAt := now + DEFAULT_INTERVAL_SECONDS
            lastCrawledAt := some now
            updatedAt := some now })
          db.crawlUrls }
    else
      let newErrors := row.errorCount + 1
      if MAX_RETRIES < newErrors then
        { db with
          crawlUrls := updateUrlRow url (fun r =>
            { r with
              status := CStatus.deleted
              deletedAt := some now })
            db.crawlUrls
          webPages := db.webPages.filter (fun p => p ≠ url) }
      else
        { db with
          crawlUrls := updateUrlRow url (fun r =>
            { r with
              status := CStatus.error
              errorCount := newErrors
              score := r.score - ERROR_PENALTY
              nextCrawlAt := now + ERROR_INTERVAL_SECONDS
              lastCrawledAt := some now
              updatedAt := some now })
            db.crawlUrls }

/-- Source: `CrawlRepository.set_crawling_status` /
`CrawlScheduler._set_crawling_status`: the SQL is
`UPDATE crawl_urls SET status = 'crawling', updated_at = NOW()
WHERE url = %s` with no predicate on the current status, and the function
returns True whenever the transaction commits (also when zero rows
matched); False is returned only on a database exception, which is
outside this model. -/
def setCrawlingStatus (now : Int) (url : String) (db : CrawlDB) :
    Bool × CrawlDB :=
  let f : UrlRow → UrlRow := fun r =>
    { r with
      status := CStatus.crawling
      updatedAt := some now }
  (true, { db with crawlUrls := updateUrlRow url f db.crawlUrls })


/-- A row returned by the PGroonga full-text query of
`SearchService._query_database`. -/
structure SearchRow where
  url : String
  title : String
  content : String
  score : Int
  imgUrl : Option String
deriving DecidableEq, Repr

/-- One processed result item of `SearchService.execute_search`
(`content` is dropped, a snippet is added). -/
structure SearchResultItem where
  url : String
  title : String
  score : Int
  snippet : String
  imgUrl : Option String
deriving DecidableEq, Repr

/-- The external state `execute_search` can read or write: the count of
full-text index queries executed, the Redis result cache, and the
`search_logs` table. -/
structure SearchState where
  indexQueries : Nat
  cacheStore : List (String × String)
  searchLogs : List (String × String)
deriving DecidableEq, Repr

/-- The response of `SearchService.execute_search`. -/
structure SearchResponse where
  searchId : String
  results : List SearchResultItem
  keywords : List String
deriving DecidableEq, Repr

/-- Source: `SearchService.execute_search` (`src/services/search_service.py`):
normalize, log the query, expand intent (`query_relations` row with score
at least 0.8) and synonyms, then run the full-text query, build snippets
and keywords.  Steps 4 and 8 of the source — the cache probe
(`get_cached_result`) and the cache fill (`set_cached_result`) — are
commented out in the code, so the cache is neither read nor written and
every call performs one index query.  `nfkc`/`lowerF` are the
normalizer's stdlib passes, `relations` the intent lookup, `db` the
full-text query and `kw` the `pgroonga_tokenize` keyword extraction. -/
def executeSearch (nfkc lowerF : String → String)
    (synDict : List (String × List String))
    (relations : String → Option String)
    (db : String → String → Nat → List SearchRow)
    (kw : String → List String)
    (raw : String) (filtersKey : String) (limit : Nat)
    (st : SearchState) : SearchResponse × SearchState :=
  let normalized := pyNormalize nfkc lowerF raw
  let searchId := toString (st.searchLogs.length + 1)
  let st1 := { st with searchLogs := st.searchLogs ++ [(raw, normalized)] }
  let intentQuery := match relations normalized with
    | some target => normalized ++ " OR " ++ target
    | none => normalized
  let expandedQuery := expand synDict intentQuery
  let rows := db expandedQuery filtersKey limit
  let st2 := { st1 with indexQueries := st1.indexQueries + 1 }
  let results := rows.map (fun r =>
    { url := r.url
      title := r.title
      score := r.score
      snippet := generate r.content normalized
      imgUrl := r.imgUrl : SearchResultItem })
  let keywords := if rows = [] then []
    else kw (String.mk
      ((String.intercalate " " (rows.map (fun r => r.title))).data.take 5000))
  ({ searchId := searchId, results := results, keywords := keywords }, st2)

-- ===== THEOREMS =====

theorem wsP_nil : wsP [] := ⟨by simp, List.chain'_nil⟩

theorem wsP_cons {c : Char} {t : List Char} (h : wsP (c :: t)) : wsP t :=
  ⟨fun d hd => h.1 d (List.mem_cons_of_mem c hd), (List.chain'_cons'.mp h.2).2⟩

theorem pyCollapse_head? {d : Char} (rest : List Char) (hd : pyIsSpace d = false) :
    (pyCollapse (d :: rest)).head? = some d := by
  cases rest with
  | nil => simp [pyCollapse, hd]
  | cons e r => simp [pyCollapse, hd]

theorem pyCollapse_wsP : ∀ l : List Char, wsP (pyCollapse l)
  | [] => wsP_nil
  | [c] => by
    by_cases hc : pyIsSpace c
    · refine ⟨?_, ?_⟩ <;> simp [pyCollapse, hc]
    · constructor
      · intro d hd hsp
        simp [pyCollapse, hc] at hd
        simp [hd] at hsp
        simp [hsp] at hc
      · simp [pyCollapse, hc]
  | c :: d :: rest => by
    have ih := pyCollapse_wsP (d :: rest)
    by_cases hc : pyIsSpace c
    · by_cases hd : pyIsSpace d
      · simpa [pyCollapse, hc, hd] using ih
      · have hhead := pyCollapse_head? rest (by simpa using hd)
        refine ⟨?_, ?_⟩
        · intro e he hsp
          rw [pyCollapse] at he
          simp only [hc, if_pos, hd] at he
          rcases List.mem_cons.mp (by simpa using he) with h1 | h2
          · exact h1
          · exact ih.1 e h2 hsp
        · rw [pyCollapse]
          simp only [hc, if_pos, hd, if_neg, Bool.false_eq_true, if_false]
          refine List.chain'_cons'.mpr ⟨?_, ih.2⟩
          intro y hy
          rw [hhead] at hy
          cases hy
          simp [hd]
    · refine ⟨?_, ?_⟩
      · intro e he hsp
        rw [pyCollapse] at he
        simp only [hc] at he
        rcases List.mem_cons.mp (by simpa using he) with h1 | h2
        · exfalso; rw [h1] at hsp; simp [hsp] at hc
        · exact ih.1 e h2 hsp
      · rw [pyCollapse]
        simp only [hc, Bool.false_eq_true, if_false]
        refine List.chain'_cons'.mpr ⟨?_, ih.2⟩
        intro y _
        intro hcon
        simp [hcon.1] at hc

theorem pyCollapse_of_wsP : ∀ l : List Char, wsP l → pyCollapse l = l
  | [], _ => rfl
  | [c], h => by
    by_cases hc : pyIsSpace c
    · have : c = ' ' := h.1 c (by simp) hc
      simp [pyCollapse, hc, this]
    · simp [pyCollapse, hc]
  | c :: d :: rest, h => by
    have ih := pyCollapse_of_wsP (d :: rest) (wsP_cons h)
    by_cases hc : pyIsSpace c
    · by_cases hd : pyIsSpace d
      · exfalso
        have := (List.chain'_cons'.mp h.2).1 d (by simp)
        exact this ⟨hc, hd⟩
      · have hcs : c = ' ' := h.1 c (by simp) hc
        rw [pyCollapse]
        simp only [hc, if_pos, hd, Bool.false_eq_true, if_false]
        rw [ih, hcs]
    · rw [pyCollapse]
      simp only [hc, Bool.false_eq_true, if_false]
      rw [ih]

theorem wsP_dropWhile (p : Char → Bool) {l : List Char} (h : wsP l) :
    wsP (l.dropWhile p) :=
  ⟨fun c hc => h.1 c ((List.dropWhile_suffix p).subset hc),
    h.2.suffix (List.dropWhile_suffix p)⟩

theorem wsP_reverse {l : List Char} (h : wsP l) : wsP l.reverse := by
  refine ⟨fun c hc => h.1 c (List.mem_reverse.mp hc), ?_⟩
  rw [List.chain'_reverse]
  exact h.2.imp fun a b hab h2 => hab ⟨h2.2, h2.1⟩

theorem wsP_pyStrip {l : List Char} (h : wsP l) : wsP (pyStrip l) :=
  wsP_reverse (wsP_dropWhile _ (wsP_reverse (wsP_dropWhile _ h)))

theorem dropWhile_dropWhile (p : Char → Bool) :
    ∀ l : List Char, (l.dropWhile p).dropWhile p = l.dropWhile p
  | [] => rfl
  | c :: t => by
    by_cases hc : p c
    · simp [List.dropWhile_cons, hc, dropWhile_dropWhile p t]
    · simp [List.dropWhile_cons, hc]

theorem head?_dropWhile (p : Char → Bool) :
    ∀ {l : List Char} {c : Char}, (l.dropWhile p).head? = some c → p c = false := by
  intro l
  induction l with
  | nil => intro c h; simp at h
  | cons a t ih =>
    intro c h
    by_cases ha : p a
    · exact ih (by simpa [List.dropWhile_cons, ha] using h)
    · simp [List.dropWhile_cons, ha] at h
      rw [← h]
      simpa using ha

theorem dropWhile_eq_self_of_head? (p : Char → Bool) {l : List Char}
    (h : ∀ c, l.head? = some c → p c = false) : l.dropWhile p = l := by
  cases l with
  | nil => rfl
  | cons a t => simp [List.dropWhile_cons, h a rfl]

theorem pyStrip_idem (l : List Char) : pyStrip (pyStrip l) = pyStrip l := by
  set m := l.dropWhile pyIsSpace with hm
  set n := m.reverse.dropWhile pyIsSpace with hn
  have hstrip : pyStrip l = n.reverse := rfl
  rw [hstrip]
  show (((n.reverse.dropWhile pyIsSpace).reverse.dropWhile pyIsSpace)).reverse
      = n.reverse
  have hdw : n.reverse.dropWhile pyIsSpace = n.reverse := by
    apply dropWhile_eq_self_of_head? pyIsSpace
    intro c hc
    rw [List.head?_reverse] at hc
    cases hme : m with
    | nil =>
      rw [hn, hme] at hc
      simp at hc
    | cons a t =>
      have hlast : n.getLast? = some c := hc
      have hsuffix : m.reverse.takeWhile pyIsSpace ++ n = m.reverse := by
        rw [hn]; exact List.takeWhile_append_dropWhile pyIsSpace m.reverse
      have hn_ne : n ≠ [] := by
        intro hnil
        rw [hnil] at hlast
        simp at hlast
      have h1 : (m.reverse.takeWhile pyIsSpace ++ n).getLast? = n.getLast? :=
        List.getLast?_append_of_ne_nil _ hn_ne
      have h2 : m.reverse.getLast? = some c := by
        rw [← hsuffix, h1, hlast]
      rw [List.getLast?_reverse] at h2
      rw [hme] at h2
      simp at h2
      have : m.head? = some a := by rw [hme]; rfl
      have := head?_dropWhile pyIsSpace (l := l) (c := a) (by rw [← hm]; exact this)
      rw [← h2]
      exact this
  rw [hdw, List.reverse_reverse, hn, dropWhile_dropWhile]

theorem pyStrip_pyCollapse_stable (l : List Char) :
    pyStrip (pyCollapse (pyStrip (pyCollapse l))) = pyStrip (pyCollapse l) := by
  have h1 : wsP (pyStrip (pyCollapse l)) := wsP_pyStrip (pyCollapse_wsP l)
  rw [pyCollapse_of_wsP _ h1]
  exact pyStrip_idem (pyCollapse l)

theorem replicate_run_iff (x : String) :
    ∀ (k : Nat) (l : List String),
      (∃ post, l = List.replicate k x ++ post) ↔
        k ≤ (l.takeWhile (fun s => s == x)).length
  | 0, l => by simp
  | k + 1, [] => by
    constructor
    · rintro ⟨post, h⟩
      simp [List.replicate_succ] at h
    · intro h; simp at h
  | k + 1, a :: t => by
    by_cases ha : a = x
    · subst ha
      constructor
      · rintro ⟨post, h⟩
        rw [List.replicate_succ, List.cons_append] at h
        have ht : t = List.replicate k a ++ post := by
          injection h with _ h2
        have := (replicate_run_iff a k t).mp ⟨post, ht⟩
        simpa using this
      · intro h
        simp only [List.takeWhile_cons, beq_self_eq_true, if_true, List.length_cons] at h
        have hk : k ≤ (t.takeWhile (fun s => s == a)).length := by omega
        obtain ⟨post, hp⟩ := (replicate_run_iff a k t).mpr hk
        exact ⟨post, by rw [List.replicate_succ, List.cons_append, ← hp]⟩
    · constructor
      · rintro ⟨post, h⟩
        rw [List.replicate_succ, List.cons_append] at h
        injection h with h1 h2
        exact absurd h1 ha
      · intro h
        have hbeq : (a == x) = false := beq_eq_false_iff_ne.mpr ha
        simp [List.takeWhile_cons, hbeq] at h

theorem run_cons_iff (k : Nat) (s : String) (rest : List String) :
    (∃ pre post y, s :: rest = pre ++ List.replicate (k + 1) y ++ post) ↔
      (k ≤ (rest.takeWhile (fun t => t == s)).length ∨
        ∃ pre post y, rest = pre ++ List.replicate (k + 1) y ++ post) := by
  constructor
  · rintro ⟨pre, post, y, h⟩
    cases pre with
    | nil =>
      rw [List.nil_append, List.replicate_succ, List.cons_append] at h
      injection h with h1 h2
      subst h1
      exact Or.inl ((replicate_run_iff s k rest).mp ⟨post, h2⟩)
    | cons p pre' =>
      rw [List.cons_append, List.cons_append] at h
      injection h with h1 h2
      exact Or.inr ⟨pre', post, y, by simpa using h2⟩
  · rintro (h | ⟨pre, post, y, h⟩)
    · obtain ⟨post, hp⟩ := (replicate_run_iff s k rest).mpr h
      exact ⟨[], post, s, by
        rw [List.nil_append, List.replicate_succ, List.cons_append, ← hp]⟩
    · exact ⟨s :: pre, post, y, by rw [h]; simp⟩

theorem repeatLoop_iff (k : Nat) (hk : 1 ≤ k) :
    ∀ (l : List String) (rc : Nat) (x : String),
      repeatLoop k rc (some x) l = true ↔
        ((1 ≤ (l.takeWhile (fun s => s == x)).length ∧
            k ≤ rc + (l.takeWhile (fun s => s == x)).length) ∨
          ∃ pre post y, l = pre ++ List.replicate (k + 1) y ++ post)
  | [], rc, x => by
    simp only [repeatLoop, List.takeWhile_nil, List.length_nil]
    constructor
    · intro h; cases h
    · rintro (⟨h1, _⟩ | ⟨pre, post, y, h⟩)
      · omega
      · exfalso
        have := congrArg List.length h
        simp [List.length_replicate] at this
        omega
  | s :: rest, rc, x => by
    by_cases hsx : s = x
    · subst hsx
      have hbeq : ((some s : Option String) == some s) = true := by simp
      by_cases htrip : k ≤ rc + 1
      · have hl : repeatLoop k rc (some s) (s :: rest) = true := by
          rw [repeatLoop]
          simp [hbeq, htrip]
        rw [hl]
        simp only [List.takeWhile_cons, beq_self_eq_true, if_true, List.length_cons]
        constructor
        · intro _; exact Or.inl ⟨by omega, by omega⟩
        · intro _; trivial
      · have hl : repeatLoop k rc (some s) (s :: rest) =
            repeatLoop k (rc + 1) (some s) rest := by
          rw [repeatLoop]
          simp [hbeq, htrip]
        rw [hl, repeatLoop_iff k hk rest (rc + 1) s, run_cons_iff k s rest]
        simp only [List.takeWhile_cons, beq_self_eq_true, if_true, List.length_cons]
        constructor
        · rintro (⟨h1, h2⟩ | h)
          · exact Or.inl ⟨by omega, by omega⟩
          · exact Or.inr (Or.inr h)
        · rintro (⟨h1, h2⟩ | h | h)
          · by_cases hrun : 1 ≤ (rest.takeWhile (fun t => t == s)).length
            · exact Or.inl ⟨hrun, by omega⟩
            · exact absurd (show k ≤ rc + 1 by omega) htrip
          · exact Or.inl ⟨by omega, by omega⟩
          · exact Or.inr h
    · have hbeq : ((some s : Option String) == some x) = false := by
        simpa using hsx
      have hl : repeatLoop k rc (some x) (s :: rest) =
          repeatLoop k 0 (some s) rest := by
        rw [repeatLoop]
        simp [hbeq]
        omega
      have hbx : (s == x) = false := beq_eq_false_iff_ne.mpr hsx
      rw [hl, repeatLoop_iff k hk rest 0 s, run_cons_iff k s rest]
      simp only [List.takeWhile_cons, hbx, Bool.false_eq_true, if_false,
        List.length_nil]
      constructor
      · rintro (⟨h1, h2⟩ | h)
        · exact Or.inr (Or.inl (by omega))
        · exact Or.inr (Or.inr h)
      · rintro (⟨h1, h2⟩ | h | h)
        · omega
        · exact Or.inl ⟨by omega, by omega⟩
        · exact Or.inr h

theorem no_run_nil (k : Nat) :
    ¬ ∃ pre post y, ([] : List String) = pre ++ List.replicate (k + 1) y ++ post := by
  rintro ⟨pre, post, y, h⟩
  have := congrArg List.length h
  simp [List.length_replicate] at this
  omega

theorem repeatLoop_none_iff (k : Nat) (hk : 1 ≤ k) (l : List String) :
    repeatLoop k 0 none l = true ↔
      ∃ pre post y, l = pre ++ List.replicate (k + 1) y ++ post := by
  cases l with
  | nil =>
    simp only [repeatLoop]
    constructor
    · intro h; cases h
    · intro h; exact absurd h (no_run_nil k)
  | cons s rest =>
    have hbeq : ((some s : Option String) == (none : Option String)) = false := rfl
    have hl : repeatLoop k 0 none (s :: rest) = repeatLoop k 0 (some s) rest := by
      rw [repeatLoop]
      simp only [hbeq, Bool.false_eq_true, if_false]
      have : ¬ k ≤ 0 := by omega
      simp [this]
    rw [hl, repeatLoop_iff k hk rest 0 s, run_cons_iff k s rest]
    constructor
    · rintro (⟨h1, h2⟩ | h)
      · exact Or.inl (by omega)
      · exact Or.inr h
    · rintro (h | h)
      · exact Or.inl ⟨by omega, by omega⟩
      · exact Or.inr h

/-- C3 (counterexample): the claim asserts that a URL whose path contains
exactly three consecutive equal segments is anomalous under
`MAX_PATH_SEGMENT_REPEATS = 3`; the code returns `false` on
`"https://x.com/a/a/a"`, whose path segments are exactly
`["a", "a", "a"]`. -/
theorem isAnomalous_three_equal_segments_not_anomalous :
    pathSegments (urlPath "https://x.com/a/a/a") = ["a", "a", "a"] ∧
      isAnomalous "https://x.com/a/a/a" = false := by
  constructor <;> decide

/-- C3 (amended): `is_anomalous(url)` returns true iff the URL is longer
than `MAX_URL_LENGTH` (256) or some path segment occurs at least
`MAX_PATH_SEGMENT_REPEATS + 1 = 4` times consecutively (the loop counts
adjacent equal pairs, so a run of exactly `MAX_PATH_SEGMENT_REPEATS`
equal segments does not trip it); in particular
`is_anomalous("https://x.com/a/a/a/a") = true`,
`is_anomalous("https://x.com/a/b/c/d") = false`, and
`is_anomalous("https://x.com/a/a/a") = false`. -/
theorem isAnomalous_iff :
    (∀ url : String,
      isAnomalous url = true ↔
        (MAX_URL_LENGTH < url.length ∨
          ∃ pre post y, pathSegments (urlPath url) =
            pre ++ List.replicate (MAX_PATH_SEGMENT_REPEATS + 1) y ++ post)) ∧
      isAnomalous "https://x.com/a/a/a/a" = true ∧
      isAnomalous "https://x.com/a/b/c/d" = false ∧
      isAnomalous "https://x.com/a/a/a" = false := by
  refine ⟨?_, by decide, by decide, by decide⟩
  intro url
  rw [isAnomalous]
  by_cases hlen : MAX_URL_LENGTH < url.length
  · rw [if_pos hlen]
    exact ⟨fun _ => Or.inl hlen, fun _ => rfl⟩
  · rw [if_neg hlen]
    by_cases hseg : pathSegments (urlPath url) = []
    · rw [if_pos hseg]
      constructor
      · intro h; cases h
      · rintro (h | h)
        · exact absurd h hlen
        · rw [hseg] at h
          exact absurd h (no_run_nil MAX_PATH_SEGMENT_REPEATS)
    · rw [if_neg hseg]
      rw [repeatLoop_none_iff MAX_PATH_SEGMENT_REPEATS (by decide)]
      constructor
      · intro h; exact Or.inr h
      · rintro (h | h)
        · exact absurd h hlen
        · exact h

/-- C8: query normalization is idempotent.  `normalize` is the pipeline
`NFKC -> lower -> collapse whitespace runs -> strip` of
`QueryNormalizer.normalize` / `normalize_query`; the two character-level
stdlib passes are parameters, assumed (as documented Unicode behaviour of
`unicodedata.normalize('NFKC', ·)` and `str.lower`) to fix strings that
the pipeline has already normalized.  The whitespace collapse/strip part
of the pipeline is proved idempotent unconditionally
(`pyStrip_pyCollapse_stable`). -/
theorem pyNormalize_idempotent (nfkc lowerF : String → String)
    (hstable : ∀ q, lowerF (nfkc (pyNormalize nfkc lowerF q)) =
      pyNormalize nfkc lowerF q) (x : String) :
    pyNormalize nfkc lowerF (pyNormalize nfkc lowerF x) =
      pyNormalize nfkc lowerF x := by
  by_cases hx : x = ""
  · subst hx
    simp [pyNormalize]
  · by_cases hyn : pyNormalize nfkc lowerF x = ""
    · rw [hyn]
      simp [pyNormalize]
    · conv_lhs => rw [pyNormalize, if_neg hyn, hstable x]
      conv_lhs => rw [pyNormalize, if_neg hx]
      conv_rhs => rw [pyNormalize, if_neg hx]
      show String.mk (pyStrip (pyCollapse
          (pyStrip (pyCollapse ((lowerF (nfkc x)).data))))) = _
      rw [pyStrip_pyCollapse_stable]

/-- C8 (witness): the idempotence theorem applied at the concrete query
`"  Hello   World  "` with the identity instantiation of the two
character-level collaborator functions, which satisfies the stability
hypothesis definitionally. -/
theorem pyNormalize_idempotent_witness :
    pyNormalize id id (pyNormalize id id "  Hello   World  ") =
      pyNormalize id id "  Hello   World  " :=
  pyNormalize_idempotent id id (fun _ => rfl) "  Hello   World  "

theorem pairwiseAnd {α : Type} {R S : α → α → Prop} :
    ∀ {l : List α}, l.Pairwise R → l.Pairwise S →
      l.Pairwise (fun a b => R a b ∧ S a b)
  | [], _, _ => List.Pairwise.nil
  | a :: t, h1, h2 => by
    rw [List.pairwise_cons] at h1 h2 ⊢
    exact ⟨fun b hb => ⟨h1.1 b hb, h2.1 b hb⟩, pairwiseAnd h1.2 h2.2⟩

theorem insertLe_perm {α : Type} (le : α → α → Bool) (x : α) :
    ∀ l : List α, List.Perm (insertLe le x l) (x :: l)
  | [] => List.Perm.refl _
  | y :: ys => by
    rw [insertLe]
    by_cases h : le x y
    · rw [if_pos h]
    · rw [if_neg h]
      exact ((insertLe_perm le x ys).cons y).trans (List.Perm.swap x y ys)

theorem sortLe_perm {α : Type} (le : α → α → Bool) :
    ∀ l : List α, List.Perm (sortLe le l) l
  | [] => List.Perm.refl _
  | x :: xs =>
    (insertLe_perm le x (sortLe le xs)).trans ((sortLe_perm le xs).cons x)

theorem insertLe_pairwise {α : Type} (le : α → α → Bool)
    (htot : ∀ a b, le a b = true ∨ le b a = true)
    (htr : ∀ a b c, le a b = true → le b c = true → le a c = true) (x : α) :
    ∀ {l : List α}, l.Pairwise (fun a b => le a b = true) →
      (insertLe le x l).Pairwise (fun a b => le a b = true)
  | [], _ => List.pairwise_cons.mpr ⟨by simp, List.Pairwise.nil⟩
  | y :: ys, h => by
    rw [List.pairwise_cons] at h
    rw [insertLe]
    by_cases hxy : le x y
    · rw [if_pos hxy]
      refine List.pairwise_cons.mpr ⟨?_, List.pairwise_cons.mpr h⟩
      intro b hb
      rcases List.mem_cons.mp hb with hb' | hb'
      · rw [hb']; exact hxy
      · exact htr x y b hxy (h.1 b hb')
    · rw [if_neg hxy]
      refine List.pairwise_cons.mpr ⟨?_, insertLe_pairwise le htot htr x h.2⟩
      intro b hb
      rcases List.mem_cons.mp ((insertLe_perm le x ys).mem_iff.mp hb) with hb' | hb'
      · rw [hb']
        rcases htot x y with hc | hc
        · exact absurd hc hxy
        · exact hc
      · exact h.1 b hb'

theorem sortLe_pairwise {α : Type} (le : α → α → Bool)
    (htot : ∀ a b, le a b = true ∨ le b a = true)
    (htr : ∀ a b c, le a b = true → le b c = true → le a c = true) :
    ∀ l : List α, (sortLe le l).Pairwise (fun a b => le a b = true)
  | [] => List.Pairwise.nil
  | x :: xs => insertLe_pairwise le htot htr x (sortLe_pairwise le htot htr xs)

theorem lexLe_total : ∀ a b : List Char, lexLe a b = true ∨ lexLe b a = true
  | [], _ => Or.inl rfl
  | _ :: _, [] => Or.inr rfl
  | a :: as, b :: bs => by
    rcases Nat.lt_trichotomy a.toNat b.toNat with h | h | h
    · left; rw [lexLe]; simp [h]
    · have h1 : ¬ a.toNat < b.toNat := by omega
      have h2 : ¬ b.toNat < a.toNat := by omega
      rcases lexLe_total as bs with hr | hr
      · left; rw [lexLe]; simp [h1, h2, hr]
      · right; rw [lexLe]; simp [h1, h2, hr]
    · right; rw [lexLe]; simp [h]

theorem lexLe_trans :
    ∀ a b c : List Char, lexLe a b = true → lexLe b c = true →
      lexLe a c = true
  | [], _, _ => fun _ _ => rfl
  | _ :: _, [], _ => fun h _ => by simp [lexLe] at h
  | _ :: _, _ :: _, [] => fun _ h => by simp [lexLe] at h
  | a :: as, b :: bs, c :: cs => by
    intro h1 h2
    rw [lexLe] at h1 h2 ⊢
    by_cases hab : a.toNat < b.toNat
    · by_cases hbc : b.toNat < c.toNat
      · simp [show a.toNat < c.toNat by omega]
      · rw [if_neg hbc] at h2
        by_cases hcb : c.toNat < b.toNat
        · rw [if_pos hcb] at h2; cases h2
        · simp [show a.toNat < c.toNat by omega]
    · rw [if_neg hab] at h1
      by_cases hba : b.toNat < a.toNat
      · rw [if_pos hba] at h1; cases h1
      · rw [if_neg hba] at h1
        by_cases hbc : b.toNat < c.toNat
        · simp [show a.toNat < c.toNat by omega]
        · rw [if_neg hbc] at h2
          by_cases hcb : c.toNat < b.toNat
          · rw [if_pos hcb] at h2; cases h2
          · rw [if_neg hcb] at h2
            have hac : ¬ a.toNat < c.toNat := by omega
            have hca : ¬ c.toNat < a.toNat := by omega
            rw [if_neg hac, if_neg hca]
            exact lexLe_trans as bs cs h1 h2

theorem strLeB_total (a b : String) : strLeB a b = true ∨ strLeB b a = true :=
  lexLe_total a.data b.data

theorem strLeB_trans (a b c : String) :
    strLeB a b = true → strLeB b c = true → strLeB a c = true :=
  lexLe_trans a.data b.data c.data

/-- C7: `SynonymExpander.expand` tokenizes the normalized query on
whitespace; for each token it forms the sorted (code-point order),
duplicate-free variant set {token} ∪ synonyms, emits a parenthesized
OR-group when that set has more than one element and the bare token
otherwise, and joins the per-token groups with single spaces; in
particular, with dictionary {"ai": ["artificial intelligence"]},
expand("ai search") = "(ai OR artificial intelligence) search". -/
theorem expand_or_groups :
    (∀ (d : List (String × List String)) (q : String),
        expand d q = (if q = "" then ""
          else String.intercalate " "
            (((pyWords q.data).map String.mk).map (synGroup d)))) ∧
    (∀ (d : List (String × List String)) (t : String),
        (synVariants d t).Pairwise
          (fun a b => strLeB a b = true ∧ a ≠ b)) ∧
    (∀ (d : List (String × List String)) (t x : String),
        x ∈ synVariants d t ↔ x = t ∨ x ∈ (d.lookup t).getD []) ∧
    expand [("ai", ["artificial intelligence"])] "ai search" =
      "(ai OR artificial intelligence) search" := by
  refine ⟨fun d q => rfl, ?_, ?_, by decide⟩
  · intro d t
    have hsorted : (synVariants d t).Pairwise (fun a b => strLeB a b = true) :=
      sortLe_pairwise strLeB strLeB_total strLeB_trans _
    have hnodup : (synVariants d t).Nodup :=
      ((sortLe_perm strLeB _).nodup_iff).mpr
        (List.nodup_dedup (t :: ((d.lookup t).getD [])))
    exact pairwiseAnd hsorted hnodup
  · intro d t x
    rw [synVariants, (sortLe_perm strLeB _).mem_iff, List.mem_dedup,
      List.mem_cons]

theorem bestFold_spec (terms : List (List Char)) :
    ∀ (l : List (List Char)) (b : List Char) (m : Int),
      ((∀ t ∈ l, scoreOf terms t ≤ m) ∧
          l.foldl (fun acc s =>
            let sc := scoreOf terms s
            if acc.2 < sc then (s, sc) else acc) (b, m) = (b, m)) ∨
        (∃ pre s post, l = pre ++ s :: post ∧ m < scoreOf terms s ∧
          (∀ t ∈ pre, scoreOf terms t < scoreOf terms s) ∧
          (∀ t ∈ post, scoreOf terms t ≤ scoreOf terms s) ∧
          l.foldl (fun acc s =>
            let sc := scoreOf terms s
            if acc.2 < sc then (s, sc) else acc) (b, m) =
              (s, scoreOf terms s))
  | [], b, m => Or.inl ⟨by simp, rfl⟩
  | a :: rest, b, m => by
    have hstep : (a :: rest).foldl (fun acc s =>
        let sc := scoreOf terms s
        if acc.2 < sc then (s, sc) else acc) (b, m) =
      rest.foldl (fun acc s =>
        let sc := scoreOf terms s
        if acc.2 < sc then (s, sc) else acc)
        (if m < scoreOf terms a then (a, scoreOf terms a) else (b, m)) := by
      rw [List.foldl_cons]
    by_cases ha : m < scoreOf terms a
    · rw [if_pos ha] at hstep
      rcases bestFold_spec terms rest a (scoreOf terms a) with
        ⟨hall, hr⟩ | ⟨pre, s, post, hl, hm, hpre, hpost, hr⟩
      · refine Or.inr ⟨[], a, rest, rfl, ha, by simp, hall, ?_⟩
        rw [hstep, hr]
      · refine Or.inr ⟨a :: pre, s, post, by rw [hl]; simp, lt_trans ha hm, ?_,
          hpost, ?_⟩
        · intro t ht
          rcases List.mem_cons.mp ht with ht' | ht'
          · rw [ht']; exact hm
          · exact hpre t ht'
        · rw [hstep, hr]
    · rw [if_neg ha] at hstep
      rcases bestFold_spec terms rest b m with
        ⟨hall, hr⟩ | ⟨pre, s, post, hl, hm, hpre, hpost, hr⟩
      · refine Or.inl ⟨?_, by rw [hstep, hr]⟩
        intro t ht
        rcases List.mem_cons.mp ht with ht' | ht'
        · rw [ht']; omega
        · exact hall t ht'
      · refine Or.inr ⟨a :: pre, s, post, by rw [hl]; simp, hm, ?_, hpost, ?_⟩
        · intro t ht
          rcases List.mem_cons.mp ht with ht' | ht'
          · rw [ht']; omega
          · exact hpre t ht'
        · rw [hstep, hr]

/-- C6 (counterexample): the claim describes splitting on all four
delimiters including `?` and scoring by distinct query tokens; the code's
regex class is `[.!。]` (no `?`) and its loop counts tokens with
multiplicity.  On `("nope? brown fox here. tail.", "brown")` and on
`("b x. a y.", "a a b")` the code and the claim-as-stated produce
different snippets. -/
theorem generate_differs_from_claim :
    generate "nope? brown fox here. tail." "brown" = "nope? brown fox here." ∧
      generateClaim "nope? brown fox here. tail." "brown" = "brown fox here." ∧
      generate "nope? brown fox here. tail." "brown" ≠
        generateClaim "nope? brown fox here. tail." "brown" ∧
      generate "b x. a y." "a a b" = "a y." ∧
      generateClaim "b x. a y." "a a b" = "b x." ∧
      generate "b x. a y." "a a b" ≠ generateClaim "b x. a y." "a a b" := by
  refine ⟨by decide, by decide, by decide, by decide, by decide, by decide⟩

/-- C6 (amended): `SnippetGenerator.generate` splits content on the three
delimiters `.`, `!`, `。` when followed by whitespace (`?` is not in the
regex class), scores each sentence by the number of lowercased query
tokens (with multiplicity) occurring as substrings, and, whenever some
sentence contains a token, returns the truncation of the first
max-scoring sentence; in particular, for content
"Intro sentence. The quick brown fox jumps. End." and query "brown fox",
the snippet is "The quick brown fox jumps." and contains
"The quick brown fox jumps". -/
theorem generate_first_max :
    (generate "Intro sentence. The quick brown fox jumps. End." "brown fox" =
        "The quick brown fox jumps." ∧
      containsSubL ("The quick brown fox jumps").data
        (generate "Intro sentence. The quick brown fox jumps. End."
          "brown fox").data = true) ∧
    (∀ content query : String, content ≠ "" →
      pyWords ((pyLower query).data) ≠ [] →
      (∃ s ∈ sentGo sentDelim false content.data,
          1 ≤ scoreOf (pyWords ((pyLower query).data)) s) →
      ∃ pre s post,
        sentGo sentDelim false content.data = pre ++ s :: post ∧
        generate content query = pyTruncate (String.mk s) ∧
        (∀ t ∈ pre, scoreOf (pyWords ((pyLower query).data)) t <
          scoreOf (pyWords ((pyLower query).data)) s) ∧
        (∀ t ∈ sentGo sentDelim false content.data,
          scoreOf (pyWords ((pyLower query).data)) t ≤
            scoreOf (pyWords ((pyLower query).data)) s)) := by
  refine ⟨⟨by decide, by decide⟩, ?_⟩
  intro content query hc ht hex
  rcases hex with ⟨s0, hs0mem, hs0⟩
  rcases bestFold_spec (pyWords ((pyLower query).data))
      (sentGo sentDelim false content.data) [] (-1) with
    ⟨hall, _⟩ | ⟨pre, s, post, hl, _, hpre, hpost, hr⟩
  · exfalso
    have := hall s0 hs0mem
    omega
  · have hsmax : ∀ t ∈ sentGo sentDelim false content.data,
        scoreOf (pyWords ((pyLower query).data)) t ≤
          scoreOf (pyWords ((pyLower query).data)) s := by
      intro t htmem
      rw [hl] at htmem
      rcases List.mem_append.mp htmem with h1 | h1
      · exact le_of_lt (hpre t h1)
      · rcases List.mem_cons.mp h1 with h2 | h2
        · rw [h2]
        · exact hpost t h2
    have hbest : bestPick (pyWords ((pyLower query).data))
        (sentGo sentDelim false content.data) =
        (s, scoreOf (pyWords ((pyLower query).data)) s) := hr
    have hs1 : 1 ≤ scoreOf (pyWords ((pyLower query).data)) s :=
      le_trans hs0 (hsmax s0 hs0mem)
    refine ⟨pre, s, post, hl, ?_, hpre, hsmax⟩
    simp only [generate, if_neg hc, if_neg ht, hbest]
    rw [if_neg (by omega)]

/-- C6 (witness): the amended first-max characterization applied at the
concrete content "Intro sentence. The quick brown fox jumps. End." and
query "brown fox". -/
theorem generate_first_max_witness :
    ∃ pre s post,
      sentGo sentDelim false
          ("Intro sentence. The quick brown fox jumps. End.").data =
        pre ++ s :: post ∧
      generate "Intro sentence. The quick brown fox jumps. End."
          "brown fox" = pyTruncate (String.mk s) ∧
      (∀ t ∈ pre, scoreOf (pyWords ((pyLower "brown fox").data)) t <
        scoreOf (pyWords ((pyLower "brown fox").data)) s) ∧
      (∀ t ∈ sentGo sentDelim false
          ("Intro sentence. The quick brown fox jumps. End.").data,
        scoreOf (pyWords ((pyLower "brown fox").data)) t ≤
          scoreOf (pyWords ((pyLower "brown fox").data)) s) :=
  generate_first_max.2 "Intro sentence. The quick brown fox jumps. End."
    "brown fox" (by decide) (by decide) (by decide)

theorem keyLeB_total (a b : Nat × Int) :
    keyLeB a b = true ∨ keyLeB b a = true := by
  rw [keyLeB, keyLeB]
  rcases Nat.lt_trichotomy a.1 b.1 with h | h | h
  · left; simp [h]
  · have h1 : ¬ a.1 < b.1 := by omega
    have h2 : ¬ b.1 < a.1 := by omega
    rcases Int.le_total a.2 b.2 with hr | hr
    · left; simp [h1, h2, hr]
    · right; simp [h1, h2, hr]
  · right; simp [h]

theorem keyLeB_trans (a b c : Nat × Int) :
    keyLeB a b = true → keyLeB b c = true → keyLeB a c = true := by
  rw [keyLeB, keyLeB, keyLeB]
  intro h1 h2
  by_cases hab : a.1 < b.1
  · by_cases hbc : b.1 < c.1
    · simp [show a.1 < c.1 by omega]
    · rw [if_neg hbc] at h2
      by_cases hcb : c.1 < b.1
      · rw [if_pos hcb] at h2; cases h2
      · simp [show a.1 < c.1 by omega]
  · rw [if_neg hab] at h1
    by_cases hba : b.1 < a.1
    · rw [if_pos hba] at h1; cases h1
    · rw [if_neg hba] at h1
      by_cases hbc : b.1 < c.1
      · simp [show a.1 < c.1 by omega]
      · rw [if_neg hbc] at h2
        by_cases hcb : c.1 < b.1
        · rw [if_pos hcb] at h2; cases h2
        · rw [if_neg hcb] at h2
          have hac : ¬ a.1 < c.1 := by omega
          have hca : ¬ c.1 < a.1 := by omega
          rw [if_neg hac, if_neg hca]
          simp only [decide_eq_true_eq] at h1 h2 ⊢
          omega

theorem sortLe_head_first_min {α : Type} (le : α → α → Bool)
    (htot : ∀ a b, le a b = true ∨ le b a = true)
    (htr : ∀ a b c, le a b = true → le b c = true → le a c = true) :
    ∀ (l : List α) (b : α) (rest : List α), sortLe le l = b :: rest →
      ∃ pre post, l = pre ++ b :: post ∧
        (∀ a ∈ pre, le a b = false) ∧ (∀ a ∈ l, le b a = true)
  | [], b, rest => by intro h; cases h
  | x :: xs, b, rest => by
    intro h
    have hrefl : ∀ a : α, le a a = true := fun a => by
      rcases htot a a with h' | h' <;> exact h'
    rw [sortLe] at h
    cases hx : sortLe le xs with
    | nil =>
      rw [hx] at h
      have hxs : xs = [] := by
        have hperm := sortLe_perm le xs
        rw [hx] at hperm
        exact (List.Perm.nil_eq hperm).symm
      rw [insertLe] at h
      injection h with hb _
      subst hb
      refine ⟨[], xs, rfl, by simp, ?_⟩
      intro a ha
      rcases List.mem_cons.mp ha with ha' | ha'
      · rw [ha']; exact hrefl x
      · rw [hxs] at ha'; cases ha'
    | cons y ys =>
      rw [hx, insertLe] at h
      obtain ⟨pre', post', hxs, hpre', hall'⟩ :=
        sortLe_head_first_min le htot htr xs y ys hx
      by_cases hxy : le x y
      · rw [if_pos hxy] at h
        injection h with hb _
        subst hb
        refine ⟨[], xs, rfl, by simp, ?_⟩
        intro a ha
        rcases List.mem_cons.mp ha with ha' | ha'
        · rw [ha']; exact hrefl x
        · exact htr x y a hxy (hall' a ha')
      · rw [if_neg hxy] at h
        injection h with hb _
        subst hb
        refine ⟨x :: pre', post', by rw [hxs]; simp, ?_, ?_⟩
        · intro a ha
          rcases List.mem_cons.mp ha with ha' | ha'
          · rw [ha']
            cases hle : le x y
            · rfl
            · exact absurd hle hxy
          · exact hpre' a ha'
        · intro a ha
          rcases List.mem_cons.mp ha with ha' | ha'
          · rw [ha']
            rcases htot x y with h' | h'
            · exact absurd h' hxy
            · exact h'
          · exact hall' a ha'

/-- C9 (counterexample): the claim ranks every image with an alt text
before every image lacking one; the code additionally requires the alt
text to be longer than 5 characters.  For
`[{hash h1, alt "cat", position 5}, {hash h2, no alt, position 1}]` the
code returns "h2" (the alt "cat" is too short to count), while the
claimed rule returns "h1". -/
theorem selectBestImage_short_alt_loses :
    selectBestImage
        [⟨"h1", some "cat", some 5⟩, ⟨"h2", none, some 1⟩] = some "h2" ∧
      selectBestImageClaim
        [⟨"h1", some "cat", some 5⟩, ⟨"h2", none, some 1⟩] = some "h1" ∧
      selectBestImage
          [⟨"h1", some "cat", some 5⟩, ⟨"h2", none, some 1⟩] ≠
        selectBestImageClaim
          [⟨"h1", some "cat", some 5⟩, ⟨"h2", none, some 1⟩] := by
  refine ⟨by decide, by decide, by decide⟩

/-- C9 (amended): `select_best_image` returns None exactly on the empty
list; on a non-empty list it returns the hash of the first image that
minimizes the key (alt-text present and longer than 5 characters first,
then smaller position with missing positions defaulting to 9999): every
earlier image has a strictly larger key and no image has a smaller
key. -/
theorem selectBestImage_spec :
    (∀ l : List PageImage, selectBestImage l = none ↔ l = []) ∧
    (∀ l : List PageImage, l ≠ [] →
      ∃ pre b post, l = pre ++ b :: post ∧
        selectBestImage l = some b.hash ∧
        (∀ a ∈ pre, keyLeB (imageKey a) (imageKey b) = false) ∧
        (∀ a ∈ l, keyLeB (imageKey b) (imageKey a) = true)) := by
  have htot : ∀ i j : PageImage,
      keyLeB (imageKey i) (imageKey j) = true ∨
        keyLeB (imageKey j) (imageKey i) = true :=
    fun i j => keyLeB_total (imageKey i) (imageKey j)
  have htr : ∀ i j k : PageImage,
      keyLeB (imageKey i) (imageKey j) = true →
        keyLeB (imageKey j) (imageKey k) = true →
          keyLeB (imageKey i) (imageKey k) = true :=
    fun i j k => keyLeB_trans (imageKey i) (imageKey j) (imageKey k)
  constructor
  · intro l
    cases l with
    | nil => simp [selectBestImage]
    | cons x xs =>
      simp only [selectBestImage]
      constructor
      · intro h
        cases hs : sortLe (fun i j => keyLeB (imageKey i) (imageKey j))
            (x :: xs) with
        | nil =>
          have hperm := sortLe_perm
            (fun i j => keyLeB (imageKey i) (imageKey j)) (x :: xs)
          rw [hs] at hperm
          cases (List.Perm.nil_eq hperm)
        | cons c cs =>
          rw [hs] at h
          simp at h
      · intro h; cases h
  · intro l hl
    cases hs : sortLe (fun i j => keyLeB (imageKey i) (imageKey j)) l with
    | nil =>
      exfalso
      have hperm := sortLe_perm
        (fun i j => keyLeB (imageKey i) (imageKey j)) l
      rw [hs] at hperm
      exact hl (List.Perm.nil_eq hperm).symm
    | cons c cs =>
      obtain ⟨pre, post, hdec, hpre, hall⟩ :=
        sortLe_head_first_min _ htot htr l c cs hs
      refine ⟨pre, c, post, hdec, ?_, hpre, hall⟩
      cases l with
      | nil => exact absurd rfl hl
      | cons x xs =>
        simp only [selectBestImage, hs, List.head?_cons, Option.map_some]
        rfl

/-- C9 (witness): the amended selector characterization applied at a
concrete two-image list. -/
theorem selectBestImage_spec_witness :
    ∃ pre b post,
      ([⟨"h1", some "a short alt text", some 7⟩,
        ⟨"h2", none, some 2⟩] : List PageImage) = pre ++ b :: post ∧
      selectBestImage
          [⟨"h1", some "a short alt text", some 7⟩,
           ⟨"h2", none, some 2⟩] = some b.hash ∧
      (∀ a ∈ pre, keyLeB (imageKey a) (imageKey b) = false) ∧
      (∀ a ∈ ([⟨"h1", some "a short alt text", some 7⟩,
          ⟨"h2", none, some 2⟩] : List PageImage),
        keyLeB (imageKey b) (imageKey a) = true) :=
  selectBestImage_spec.2
    [⟨"h1", some "a short alt text", some 7⟩, ⟨"h2", none, some 2⟩]
    (by decide)

theorem dedupAcc_mem :
    ∀ (l seen : List String) (x : String),
      x ∈ dedupAcc seen l ↔ x ∈ l ∧ x ∉ seen
  | [], seen, x => by simp [dedupAcc]
  | y :: ys, seen, x => by
    rw [dedupAcc]
    by_cases hy : y ∈ seen
    · rw [if_pos hy, dedupAcc_mem ys seen x]
      constructor
      · rintro ⟨h1, h2⟩
        exact ⟨List.mem_cons_of_mem y h1, h2⟩
      · rintro ⟨h1, h2⟩
        rcases List.mem_cons.mp h1 with h3 | h3
        · exact absurd (h3 ▸ hy) h2
        · exact ⟨h3, h2⟩
    · rw [if_neg hy]
      constructor
      · intro h
        rcases List.mem_cons.mp h with h1 | h1
        · rw [h1]
          exact ⟨List.mem_cons_self y ys, hy⟩
        · obtain ⟨h2, h3⟩ := (dedupAcc_mem ys (y :: seen) x).mp h1
          exact ⟨List.mem_cons_of_mem y h2,
            fun hc => h3 (List.mem_cons_of_mem y hc)⟩
      · rintro ⟨h1, h2⟩
        rcases List.mem_cons.mp h1 with h3 | h3
        · rw [h3]
          exact List.mem_cons_self y _
        · by_cases hxy : x = y
          · rw [hxy]
            exact List.mem_cons_self y _
          · refine List.mem_cons_of_mem y
              ((dedupAcc_mem ys (y :: seen) x).mpr ⟨h3, ?_⟩)
            intro hc
            rcases List.mem_cons.mp hc with hc' | hc'
            · exact hxy hc'
            · exact h2 hc'

theorem dedupAcc_nodup : ∀ (l seen : List String), (dedupAcc seen l).Nodup
  | [], _ => List.Pairwise.nil
  | y :: ys, seen => by
    rw [dedupAcc]
    by_cases hy : y ∈ seen
    · rw [if_pos hy]
      exact dedupAcc_nodup ys seen
    · rw [if_neg hy]
      refine List.nodup_cons.mpr ⟨?_, dedupAcc_nodup ys (y :: seen)⟩
      intro hc
      exact ((dedupAcc_mem ys (y :: seen) y).mp hc).2 (List.mem_cons_self y seen)

/-- C5 (counterexample): the claim says the extractor returns the links
in insertion (first-occurrence) order; the code returns `list(links)` for
a Python `set`, whose iteration order is unspecified.  The reversed
enumeration is a legitimate set enumeration, and under it the extractor
returns the two qualifying links in the opposite of insertion order. -/
theorem extractLinks_not_insertion_order :
    validSetEnum List.reverse ∧
      extractLinksWith (fun _ href => href) List.reverse "http://x.com/"
          ["http://x.com/a", "http://x.com/b"] =
        ["http://x.com/b", "http://x.com/a"] ∧
      extractLinksWith (fun _ href => href) List.reverse "http://x.com/"
          ["http://x.com/a", "http://x.com/b"] ≠
        insertionDedup (linkCandidates (fun _ href => href) "http://x.com/"
          ["http://x.com/a", "http://x.com/b"]) := by
  refine ⟨?_, by decide, by decide⟩
  intro m hm
  exact ⟨List.nodup_reverse.mpr hm, fun x => List.mem_reverse⟩

/-- C5 (amended): for every base URL and document, the extractor returns
a duplicate-free list whose elements are exactly the qualifying
normalized links (the first occurrence of each); the order is the Python
set's iteration order, which is unspecified and in particular not
guaranteed to be insertion order. -/
theorem extractLinks_dedup_same_elements
    (ujoin : String → String → String) (enum : List String → List String)
    (henum : validSetEnum enum) (baseUrl : String) (hrefs : List String) :
    (extractLinksWith ujoin enum baseUrl hrefs).Nodup ∧
      ∀ x, x ∈ extractLinksWith ujoin enum baseUrl hrefs ↔
        x ∈ linkCandidates ujoin baseUrl hrefs := by
  have hnd : (insertionDedup (linkCandidates ujoin baseUrl hrefs)).Nodup :=
    dedupAcc_nodup _ []
  obtain ⟨h1, h2⟩ := henum _ hnd
  refine ⟨h1, fun x => (h2 x).trans ?_⟩
  rw [insertionDedup, dedupAcc_mem]
  simp

/-- C5 (witness): the amended statement applied with the identity
enumeration (which satisfies the set-enumeration contract) at a concrete
base URL and href list containing a duplicate and an ignored link. -/
theorem extractLinks_dedup_witness :
    (extractLinksWith (fun _ href => href) id "http://x.com/"
        ["http://x.com/a", "http://x.com/a", "mailto:z"]).Nodup ∧
      ∀ x, x ∈ extractLinksWith (fun _ href => href) id "http://x.com/"
          ["http://x.com/a", "http://x.com/a", "mailto:z"] ↔
        x ∈ linkCandidates (fun _ href => href) "http://x.com/"
          ["http://x.com/a", "http://x.com/a", "mailto:z"] :=
  extractLinks_dedup_same_elements (fun _ href => href) id
    (fun _ hl => ⟨hl, fun _ => Iff.rfl⟩) "http://x.com/"
    ["http://x.com/a", "http://x.com/a", "mailto:z"]

theorem lookup_updateUrlRow (u : String) (f : UrlRow → UrlRow) :
    ∀ l : List (String × UrlRow),
      (updateUrlRow u f l).lookup u = (l.lookup u).map f := by
  intro l
  induction l with
  | nil => rfl
  | cons p t ih =>
    obtain ⟨k, v⟩ := p
    by_cases hk : k = u
    · subst hk
      have hmap : updateUrlRow k f ((k, v) :: t) =
          (k, f v) :: updateUrlRow k f t := by
        simp [updateUrlRow]
      rw [hmap]
      show List.lookup k ((k, f v) :: updateUrlRow k f t) =
        (List.lookup k ((k, v) :: t)).map f
      simp [List.lookup]
    · have hmap : updateUrlRow u f ((k, v) :: t) =
          (k, v) :: updateUrlRow u f t := by
        simp [updateUrlRow, hk]
      have h1 : (u == k) = false := beq_eq_false_iff_ne.mpr
        (fun h => hk h.symm)
      rw [hmap]
      show List.lookup u ((k, v) :: updateUrlRow u f t) =
        (List.lookup u ((k, v) :: t)).map f
      simp only [List.lookup, h1]
      exact ih

/-- C1: evaluation of the code at the failing input.  `set_crawling_status`
runs an UPDATE with no predicate on the current status and returns True
unconditionally, so (a) a URL already reserved (`status = 'crawling'`) is
"reserved" again with the call returning True — two racing reserves both
return True — and (b) even a `blocked` URL is moved to `crawling`. -/
theorem setCrawlingStatus_unconditional :
    (setCrawlingStatus 1 "http://x.com/p"
        ⟨[("http://x.com/p",
           ⟨"x.com", 0, CStatus.crawling, 100, 0, 0, none, none, none⟩)],
         [], []⟩).1 = true ∧
      (setCrawlingStatus 2 "http://x.com/p"
        (setCrawlingStatus 1 "http://x.com/p"
          ⟨[("http://x.com/p",
             ⟨"x.com", 0, CStatus.crawling, 100, 0, 0, none, none, none⟩)],
           [], []⟩).2).1 = true ∧
      (((setCrawlingStatus 1 "http://x.com/p"
          ⟨[("http://x.com/p",
             ⟨"x.com", 0, CStatus.blocked, 100, 0, 0, none, none, none⟩)],
           [], []⟩).2.crawlUrls.lookup "http://x.com/p").map
        (fun r => r.status)) = some CStatus.crawling := by
  refine ⟨rfl, rfl, by decide⟩

/-- C2: evaluation of the code.  `execute_search` performs exactly one
full-text index query per call and neither reads nor writes the result
cache (the probe and fill are commented out in the source), so two calls
with an identical (query, filters, limit) tuple perform two index
queries, not one. -/
theorem executeSearch_no_cache :
    (∀ (nfkc lowerF : String → String)
        (synDict : List (String × List String))
        (relations : String → Option String)
        (db : String → String → Nat → List SearchRow)
        (kw : String → List String)
        (raw filtersKey : String) (limit : Nat) (st : SearchState),
      (executeSearch nfkc lowerF synDict relations db kw raw filtersKey
          limit st).2.indexQueries = st.indexQueries + 1 ∧
        (executeSearch nfkc lowerF synDict relations db kw raw filtersKey
          limit st).2.cacheStore = st.cacheStore) ∧
      (executeSearch id id [] (fun _ => none) (fun _ _ _ => [])
          (fun _ => []) "ai" "nofilters" 10
          ((executeSearch id id [] (fun _ => none) (fun _ _ _ => [])
            (fun _ => []) "ai" "nofilters" 10
            ⟨0, [], []⟩).2)).2.indexQueries = 2 := by
  refine ⟨fun nfkc lowerF synDict relations db kw raw fk limit st =>
    ⟨rfl, rfl⟩, by decide⟩

/-- C4: on failure, `mark_crawled` increments the error count, subtracts
`ERROR_PENALTY` from the score, sets `status = 'error'` and reschedules
at `now + ERROR_INTERVAL_SECONDS`; when the incremented count exceeds
`MAX_RETRIES` it instead transitions the row to `deleted` and removes the
`web_pages` row for the URL within the same transaction.  The closing
conjunct evaluates the concrete scenario: a URL failing six consecutive
times with `MAX_RETRIES = 5` ends deleted with its page row removed. -/
theorem markCrawled_failure (now : Int) (url : String) (db : CrawlDB)
    (row : UrlRow) (h : db.crawlUrls.lookup url = some row) :
    ((row.errorCount + 1 ≤ MAX_RETRIES →
      ∃ row', (markCrawled now url false db).crawlUrls.lookup url =
          some row' ∧
        row'.status = CStatus.error ∧
        row'.errorCount = row.errorCount + 1 ∧
        row'.score = row.score - ERROR_PENALTY ∧
        row'.nextCrawlAt = now + ERROR_INTERVAL_SECONDS) ∧
    (MAX_RETRIES < row.errorCount + 1 →
      ∃ row', (markCrawled now url false db).crawlUrls.lookup url =
          some row' ∧
        row'.status = CStatus.deleted ∧
        url ∉ (markCrawled now url false db).webPages)) ∧
    (((markCrawled 6 "u" false (markCrawled 5 "u" false (markCrawled 4 "u"
        false (markCrawled 3 "u" false (markCrawled 2 "u" false
        (markCrawled 1 "u" false
          (⟨[("u", ⟨"x.com", 0, CStatus.pending, 100, 0, 0, none, none,
            none⟩)], ["u"], []⟩ : CrawlDB))))))).crawlUrls.lookup
        "u").map (fun r => r.status) = some CStatus.deleted ∧
      "u" ∉ (markCrawled 6 "u" false (markCrawled 5 "u" false
        (markCrawled 4 "u" false (markCrawled 3 "u" false (markCrawled 2
        "u" false (markCrawled 1 "u" false
          (⟨[("u", ⟨"x.com", 0, CStatus.pending, 100, 0, 0, none, none,
            none⟩)], ["u"], []⟩ : CrawlDB))))))).webPages) := by
  refine ⟨⟨?_, ?_⟩, by decide, by decide⟩
  · intro hle
    rw [markCrawled, h]
    dsimp only
    rw [if_neg (by simp), if_neg (by omega)]
    refine ⟨{ row with
      status := CStatus.error
      errorCount := row.errorCount + 1
      score := row.score - ERROR_PENALTY
      nextCrawlAt := now + ERROR_INTERVAL_SECONDS
      lastCrawledAt := some now
      updatedAt := some now }, ?_, rfl, rfl, rfl, rfl⟩
    rw [lookup_updateUrlRow, h]
    rfl
  · intro hgt
    rw [markCrawled, h]
    dsimp only
    rw [if_neg (by simp), if_pos (by omega)]
    refine ⟨{ row with
      status := CStatus.deleted
      deletedAt := some now }, ?_, rfl, ?_⟩
    · rw [lookup_updateUrlRow, h]
      rfl
    · intro hc
      simp only [List.mem_filter] at hc
      have := hc.2
      simp at this

/-- C4 (witness): the failure transition applied at a concrete database
whose row for "u" already carries five errors, exercising the
delete branch. -/
theorem markCrawled_failure_witness :
    ∃ row', ((markCrawled 7 "u" false
        (⟨[("u", ⟨"x.com", 0, CStatus.error, 0, 5, 0, none, none, none⟩)],
          ["u"], []⟩ : CrawlDB)).crawlUrls.lookup "u") = some row' ∧
      row'.status = CStatus.deleted ∧
      "u" ∉ (markCrawled 7 "u" false
        (⟨[("u", ⟨"x.com", 0, CStatus.error, 0, 5, 0, none, none, none⟩)],
          ["u"], []⟩ : CrawlDB)).webPages :=
  (markCrawled_failure 7 "u"
    ⟨[("u", ⟨"x.com", 0, CStatus.error, 0, 5, 0, none, none, none⟩)],
      ["u"], []⟩
    ⟨"x.com", 0, CStatus.error, 0, 5, 0, none, none, none⟩ rfl).1.2
    (by decide)

/-- C10: for a URL with no row in `crawl_urls`, `mark_crawled` is a
no-op for both success values: the early `if not row: return` leaves the
whole database state — `crawl_urls`, `web_pages` and the per-domain
success counters — unchanged. -/
theorem markCrawled_absent_noop (now : Int) (url : String) (b : Bool)
    (db : CrawlDB) (h : db.crawlUrls.lookup url = none) :
    markCrawled now url b db = db := by
  rw [markCrawled, h]

/-- C10 (witness): the no-op theorem applied at an empty database for
both success values. -/
theorem markCrawled_absent_noop_witness :
    markCrawled 1 "http://x.com/p" true (⟨[], [], []⟩ : CrawlDB) =
        (⟨[], [], []⟩ : CrawlDB) ∧
      markCrawled 1 "http://x.com/p" false (⟨[], [], []⟩ : CrawlDB) =
        (⟨[], [], []⟩ : CrawlDB) :=
  ⟨markCrawled_absent_noop 1 "http://x.com/p" true ⟨[], [], []⟩ rfl,
    markCrawled_absent_noop 1 "http://x.com/p" false ⟨[], [], []⟩ rfl⟩
